import Mathlib

/-!
Verification development for the `cortex` tarball helper
(`src/cortex/tarball_helper.py`).

The Python module is embedded shallowly:

* the `re.findall` calls of `_parse_dependencies` become explicit
  left-to-right scanners over `List Char` (one per pattern; Python's `\w`
  class is modelled by its ASCII fragment, which covers every input the
  repository's files and tests exercise);
* `os.walk` becomes a fold over an explicit directory-tree datatype,
  with the filesystem itself a partial map from paths to trees
  (`os.walk` on a missing root yields no entries);
* Python `set` accumulation (`set.update` / `list(set)`) is modelled by
  first-occurrence deduplicating insertion (`setInsert` / `setUpdate`);
  CPython's own iteration order for a `str` set is unspecified, so every
  theorem about `analyze` speaks only about membership, duplicate-freedom
  or permutation, never about a concrete order;
* the tracker's JSON persistence file becomes an explicit `FileState`
  (absent / malformed / a parsed JSON value), and `json.load(f).get(...)`
  becomes `load_tracked_packages`, whose error cases mirror the
  exceptions `json.load` and `.get` can raise;
* `subprocess.run(..., check=False)` returns an exit status the code
  never inspects; `install_deps` therefore takes the exit statuses as an
  explicit oracle argument and provably ignores it.
-/

namespace Cortex

/-- ASCII fragment of Python's `\w` regex class: letters, digits, underscore. -/
def isWordChar (c : Char) : Bool := c.isAlphanum || c = '_'

/-- Character class `[\w\-]` used by the inner `setup.py` pattern. -/
def isWordHyphen (c : Char) : Bool := isWordChar c || c = '-'

/-- Character class `['\"]` (either quote) used by the quoted-token patterns. -/
def isQuote (c : Char) : Bool := c = '\'' || c = '"'

/-- Boolean list-prefix test, used to model a regex literal matching at a position. -/
def hasPrefixL : List Char → List Char → Bool
  | [], _ => true
  | _ :: _, [] => false
  | l :: ls, c :: cs => l == c && hasPrefixL ls cs

/-- Scanner for the patterns `find_package\((\w+)` (CMake) and `-l(\w+)`
(Makefile): find each non-overlapping occurrence of the literal `lit`
followed by a nonempty maximal word-character run, capture the run, and
resume scanning after it; otherwise advance one character, exactly as
`re.findall` does. -/
def scanLitWord (lit : List Char) : List Char → List (List Char)
  | [] => []
  | c :: rest =>
    if hasPrefixL lit (c :: rest) then
      match hw : ((c :: rest).drop lit.length).takeWhile isWordChar with
      | [] => scanLitWord lit rest
      | w₀ :: w' => (w₀ :: w') :: scanLitWord lit (((c :: rest).drop lit.length).dropWhile isWordChar)
    else scanLitWord lit rest
termination_by cs => cs.length
decreasing_by
  all_goals simp only [List.length_cons]
  all_goals try omega
  all_goals
    have h := congrArg List.length
      (List.takeWhile_append_dropWhile isWordChar ((c :: rest).drop lit.length))
    rw [hw] at h
    simp only [List.length_append, List.length_cons, List.length_drop] at h
    omega

/-- Scanner for `dependency\(['\"](\w+)` (Meson): the literal, then one quote
character, then a nonempty word-character run (captured). -/
def scanLitQuoteWord (lit : List Char) : List Char → List (List Char)
  | [] => []
  | c :: rest =>
    if hasPrefixL lit (c :: rest) then
      match hq : (c :: rest).drop lit.length with
      | [] => scanLitQuoteWord lit rest
      | q :: after =>
        if isQuote q then
          match hw : after.takeWhile isWordChar with
          | [] => scanLitQuoteWord lit rest
          | w₀ :: w' => (w₀ :: w') :: scanLitQuoteWord lit (after.dropWhile isWordChar)
        else scanLitQuoteWord lit rest
    else scanLitQuoteWord lit rest
termination_by cs => cs.length
decreasing_by
  all_goals simp only [List.length_cons]
  all_goals try omega
  all_goals
    have h := congrArg List.length (List.takeWhile_append_dropWhile isWordChar after)
    rw [hw] at h
    have h2 := congrArg List.length hq
    simp only [List.length_append, List.length_cons, List.length_drop] at h h2
    omega

/-- Optional leading `[` of the Autoconf pattern `\[?`: it is consumed
exactly when a word character follows it (with no word character after the
bracket, regex backtracking retries without the bracket and then fails on
the bracket itself, which is not a word character). -/
def stripLeadBracket (cs : List Char) : List Char :=
  match cs with
  | '[' :: rest => if rest.takeWhile isWordChar = [] then cs else rest
  | _ => cs

/-- Scanner for `AC_CHECK_LIB\(\[?(\w+)` (Autoconf): the literal, then an
optional `[`, then a nonempty word run (captured). -/
def scanLitOptBracketWord (lit : List Char) : List Char → List (List Char)
  | [] => []
  | c :: rest =>
    if hasPrefixL lit (c :: rest) then
      match hw : (stripLeadBracket ((c :: rest).drop lit.length)).takeWhile isWordChar with
      | [] => scanLitOptBracketWord lit rest
      | w₀ :: w' =>
        (w₀ :: w') :: scanLitOptBracketWord lit ((stripLeadBracket ((c :: rest).drop lit.length)).dropWhile isWordChar)
    else scanLitOptBracketWord lit rest
termination_by cs => cs.length
decreasing_by
  all_goals simp only [List.length_cons]
  all_goals try omega
  all_goals
    have h := congrArg List.length
      (List.takeWhile_append_dropWhile isWordChar (stripLeadBracket ((c :: rest).drop lit.length)))
    rw [hw] at h
    have h3 : ∀ l : List Char, (stripLeadBracket l).length ≤ l.length := by
      intro l
      unfold stripLeadBracket
      split
      · split
        · exact Nat.le_refl _
        · simp only [List.length_cons]
          omega
      · exact Nat.le_refl _
    have h4 := h3 ((c :: rest).drop lit.length)
    simp only [List.length_append, List.length_cons, List.length_drop] at h h4
    omega

/-- Scanner for `install_requires=\[(.*?)\]` under `re.DOTALL`: at each
occurrence of the literal, the non-greedy body runs to the first `]`
after it (captured); with no closing `]` the match attempt fails and
scanning advances one character. -/
def scanListLiteral (lit : List Char) : List Char → List (List Char)
  | [] => []
  | c :: rest =>
    if hasPrefixL lit (c :: rest) then
      match hm : ((c :: rest).drop lit.length).dropWhile (fun ch => ch != ']') with
      | [] => scanListLiteral lit rest
      | _ :: tail =>
        (((c :: rest).drop lit.length).takeWhile (fun ch => ch != ']')) :: scanListLiteral lit tail
    else scanListLiteral lit rest
termination_by cs => cs.length
decreasing_by
  all_goals simp only [List.length_cons]
  all_goals try omega
  all_goals
    have h := congrArg List.length
      (List.takeWhile_append_dropWhile (fun ch => ch != ']') ((c :: rest).drop lit.length))
    rw [hm] at h
    simp only [List.length_append, List.length_cons, List.length_drop] at h
    omega

/-- Scanner for the inner pattern `['\"]([\w\-]+)['\"]`: an opening quote, a
nonempty maximal `[\w\-]` run (captured), and a closing quote (either kind;
no backtracking can shorten the run because quotes are outside the class). -/
def scanQuoted : List Char → List (List Char)
  | [] => []
  | c :: rest =>
    if isQuote c then
      match rest.takeWhile isWordHyphen with
      | [] => scanQuoted rest
      | w₀ :: w' =>
        match hd : rest.dropWhile isWordHyphen with
        | [] => scanQuoted rest
        | q :: tail => if isQuote q then (w₀ :: w') :: scanQuoted tail else scanQuoted rest
    else scanQuoted rest
termination_by cs => cs.length
decreasing_by
  all_goals simp only [List.length_cons]
  all_goals try omega
  all_goals
    have h := congrArg List.length (List.takeWhile_append_dropWhile isWordHyphen rest)
    rw [hd] at h
    simp only [List.length_append, List.length_cons] at h
    omega

/-- Insertion into a Python `set`, modelled as first-occurrence order on a
duplicate-free list: membership and cardinality agree with CPython's `set`
(only iteration order, which CPython leaves unspecified, is fixed here). -/
def setInsert (l : List String) (x : String) : List String :=
  if x ∈ l then l else l ++ [x]

/-- `set.update(xs)`: insert every element of `xs` in order. -/
def setUpdate (l : List String) (xs : List String) : List String :=
  xs.foldl setInsert l

/-- Captured groups of one `re.findall` call, as Lean strings. -/
def listToStrings (l : List (List Char)) : List String :=
  l.map (fun cs => String.mk cs)

/-- `TarballHelper._parse_dependencies`: dispatch on the file name, run the
file's pattern over the whole content, and return the resulting dependency
set as a list (`deps = set(); deps.update(matches); return list(deps)`).
For `setup.py` each outer `install_requires=[...]` match is further searched
for quoted tokens. -/
def parse_dependencies (fname : String) (content : String) : List String :=
  let cs := content.toList
  let found : List String :=
    if fname = "CMakeLists.txt" then
      listToStrings (scanLitWord "find_package(".toList cs)
    else if fname = "meson.build" then
      listToStrings (scanLitQuoteWord "dependency(".toList cs)
    else if fname = "configure.ac" then
      listToStrings (scanLitOptBracketWord "AC_CHECK_LIB(".toList cs)
    else if fname = "Makefile" then
      listToStrings (scanLitWord "-l".toList cs)
    else if fname = "setup.py" then
      listToStrings ((scanListLiteral "install_requires=[".toList cs).flatMap scanQuoted)
    else []
  setUpdate [] found

/-- A directory: files as (name, text content) pairs, plus subdirectories.
File reading is total here: `open(fpath, errors="ignore")` replaces
undecodable bytes rather than failing, so a file's text is always defined. -/
inductive DirTree where
  | node : List (String × String) → List (String × DirTree) → DirTree

mutual

/-- The (name, content) pairs that `os.walk` visits, top-down: the root's
own files first, then each subdirectory recursively. -/
def walkFiles : DirTree → List (String × String)
  | .node files subdirs => files ++ walkFilesList subdirs

def walkFilesList : List (String × DirTree) → List (String × String)
  | [] => []
  | (_, t) :: ts => walkFiles t ++ walkFilesList ts

end

/-- The file names `TarballHelper.analyze` recognizes, in source order. -/
def recognizedNames : List String :=
  ["CMakeLists.txt", "configure.ac", "meson.build", "Makefile", "setup.py"]

/-- The filesystem, as a partial map from root paths to directory trees;
`os.walk` over a path that maps to nothing yields no entries at all
(its default `onerror=None` swallows the listing error). -/
def osWalkFiles (fs : String → Option DirTree) (path : String) : List (String × String) :=
  match fs path with
  | none => []
  | some t => walkFiles t

/-- `TarballHelper.analyze`: walk the tree under `path`, and for every file
whose name is recognized, add its parsed dependencies to the accumulated
set; return the set as a list. -/
def analyze (fs : String → Option DirTree) (path : String) : List String :=
  (osWalkFiles fs path).foldl
    (fun deps fc =>
      if recognizedNames.contains fc.1 then setUpdate deps (parse_dependencies fc.1 fc.2)
      else deps)
    []

/-- The recognized (name, content) pairs of the walk, in visit order. -/
def recognizedWalk (fs : String → Option DirTree) (path : String) : List (String × String) :=
  (osWalkFiles fs path).filter (fun fc => recognizedNames.contains fc.1)

/-- Python `str.lower` on the ASCII range (the repository's inputs). -/
def pyLower (s : String) : String := String.mk (s.toList.map Char.toLower)

/-- The Resolver's deterministic heuristic `f"lib{dep.lower()}-dev"`. -/
def aptName (dep : String) : String := "lib" ++ pyLower dep ++ "-dev"

/-- Assignment `mapping[k] = v` on a Python dict, modelled as an ordered
association list with unique keys: an existing key keeps its position and
gets the new value, a new key is appended. -/
def dictInsert (m : List (String × String)) (k v : String) : List (String × String) :=
  if k ∈ m.map Prod.fst then m.map (fun kv => if kv.1 = k then (kv.1, v) else kv)
  else m ++ [(k, v)]

/-- Lookup `m[k]` on the association-list model of a dict. -/
def dictFind (m : List (String × String)) (k : String) : Option String :=
  match m with
  | [] => none
  | kv :: rest => if kv.1 = k then some kv.2 else dictFind rest k

/-- `TarballHelper.suggest_apt_packages`: build the mapping
`dep ↦ f"lib{dep.lower()}-dev"` over the given dependency names. -/
def suggest_apt_packages (deps : List String) : List (String × String) :=
  deps.foldl (fun m dep => dictInsert m dep (aptName dep)) []

/-- A parsed JSON value, the possible results of `json.load`. -/
inductive JValue where
  | jnull
  | jbool (b : Bool)
  | jnum (n : Int)
  | jstr (s : String)
  | jarr (items : List JValue)
  | jobj (fields : List (String × JValue))

/-- The tracking file `~/.cortex/manual_builds.json` as the tracker sees it:
missing, present but not parseable as JSON, or holding a parsed value. -/
inductive FileState where
  | absent
  | malformed
  | valid (v : JValue)

/-- The exceptions `_load_tracked_packages` can raise: `json.load` on
malformed text, and `.get` on a parsed value that is not a dict. -/
inductive LoadErr where
  | jsonDecodeError
  | attributeError

/-- Python `dict.get(key, default)` for a dict built by `json.load`, where
a key repeated in the source text keeps its last value. -/
def dictGetD (fields : List (String × JValue)) (key : String) (d : JValue) : JValue :=
  fields.foldl (fun acc kv => if kv.1 = key then kv.2 else acc) d

/-- `TarballHelper._load_tracked_packages`:
`json.load(f).get("packages", [])` if the file exists, else `[]`.
`.get` is only defined on dicts, so any other parsed shape raises. -/
def load_tracked_packages : FileState → Except LoadErr JValue
  | .absent => .ok (.jarr [])
  | .malformed => .error .jsonDecodeError
  | .valid (.jobj fields) => .ok (dictGetD fields "packages" (.jarr []))
  | .valid _ => .error .attributeError

/-- In-memory tracker plus the persisted file it maintains. -/
structure TrackerState where
  tracked : List String
  file : FileState

/-- The JSON text `_save_tracked_packages` writes:
`{"packages": [...]}` with the tracked list in order. -/
def savedFile (pkgs : List String) : FileState :=
  .valid (.jobj [("packages", .jarr (pkgs.map .jstr))])

/-- `TarballHelper._save_tracked_packages`: overwrite the backing file with
the current tracked list. -/
def save_tracked_packages (s : TrackerState) : TrackerState :=
  { s with file := savedFile s.tracked }

/-- `TarballHelper.track`: if the package is not yet tracked, append it and
persist; otherwise do nothing at all (no write occurs). -/
def track (pkg : String) (s : TrackerState) : TrackerState :=
  if pkg ∈ s.tracked then s
  else save_tracked_packages { s with tracked := s.tracked ++ [pkg] }

/-- `TarballHelper.cleanup`: issue a best-effort removal per tracked package
(exit status discarded by `check=False`, hence not modelled), then reset the
tracked list to empty and persist it. -/
def cleanup (s : TrackerState) : TrackerState :=
  save_tracked_packages { s with tracked := [] }

/-- `TarballHelper.install_deps`: for each requested package in order, run
the install command — whose exit status, supplied here by the `exitCode`
oracle, is discarded by `check=False` — and then `track` the package
unconditionally. Returns the final state and the list of packages for which
an install command was issued, in order. -/
def install_deps (exitCode : String → Int) (pkgs : List String) (s : TrackerState) :
    TrackerState × List String :=
  match pkgs with
  | [] => (s, [])
  | pkg :: rest =>
    let _ := exitCode pkg
    let out := install_deps exitCode rest (track pkg s)
    (out.1, pkg :: out.2)

/-- Interpret a loaded `packages` value as the `list[str]` the tracker code
assumes: defined exactly when every element is a JSON string. -/
def asStrings : List JValue → Option (List String)
  | [] => some []
  | .jstr s :: rest => (asStrings rest).map (fun l => s :: l)
  | _ :: _ => none

/-- `TarballHelper.__init__` for a file whose loaded `packages` value is a
list of strings: the in-memory tracked list is taken verbatim from the file
(no deduplication, no validation). -/
def mkInit (f : FileState) : Option TrackerState :=
  match load_tracked_packages f with
  | .ok (.jarr items) => (asStrings items).map (fun l => ⟨l, f⟩)
  | _ => none

/-- One CMake call `find_package(<name>)`, at the character level. -/
def cmakeCallL (x : List Char) : List Char := "find_package(".toList ++ (x ++ [')'])

/-- A CMake manifest that consists of `find_package` calls interleaved with
arbitrary separator runs: `sep₀ call₁ sep₁ … callₙ sepₙ`
(`seps` must have one more element than `names`). -/
def glueCalls : List (List Char) → List (List Char) → List Char
  | sep :: seps, x :: xs => sep ++ (cmakeCallL x ++ glueCalls seps xs)
  | sep :: _, [] => sep
  | [], _ => []

/-- The manifest of `glueCalls`, as the string content of `CMakeLists.txt`. -/
def cmakeContent (seps names : List (List Char)) : String :=
  String.mk (glueCalls seps names)

/-- One single-quoted token `'<name>'`, at the character level. -/
def quoteTok (x : List Char) : List Char := '\'' :: (x ++ ['\''])

/-- The inside of an `install_requires` list: quoted tokens interleaved with
separator runs (`seps` must have one more element than `names`). -/
def glueToks : List (List Char) → List (List Char) → List Char
  | sep :: seps, x :: xs => sep ++ (quoteTok x ++ glueToks seps xs)
  | sep :: _, [] => sep
  | [], _ => []

/-- The literal of the outer `setup.py` pattern. -/
def setupLit : List Char := "install_requires=[".toList

/-- A `setup.py` whose text is `pre` + `install_requires=[` + quoted tokens
+ `]` + `post`. -/
def setupContent (pre : List Char) (seps names : List (List Char)) (post : List Char) : String :=
  String.mk (pre ++ (setupLit ++ (glueToks seps names ++ (']' :: post))))

/-- A persistence file whose `packages` array holds the string `"a"` twice. -/
def dupFile : FileState :=
  .valid (.jobj [("packages", .jarr [.jstr "a", .jstr "a"])])

/-- The tracker state obtained by starting the helper on `dupFile`. -/
def sDup : TrackerState := ⟨["a", "a"], dupFile⟩

theorem mem_setInsert (l : List String) (x y : String) :
    y ∈ setInsert l x ↔ y ∈ l ∨ y = x := by
  unfold setInsert
  split
  · rename_i hx
    constructor
    · exact Or.inl
    · rintro (h | rfl)
      · exact h
      · exact hx
  · simp [List.mem_append]

theorem mem_setUpdate (l xs : List String) (y : String) :
    y ∈ setUpdate l xs ↔ y ∈ l ∨ y ∈ xs := by
  induction xs generalizing l with
  | nil => simp [setUpdate]
  | cons x xs ih =>
    show y ∈ setUpdate (setInsert l x) xs ↔ _
    rw [ih, mem_setInsert]
    simp [or_assoc]

theorem setUpdate_append (l xs ys : List String) :
    setUpdate l (xs ++ ys) = setUpdate (setUpdate l xs) ys :=
  List.foldl_append setInsert l xs ys

theorem nodup_setInsert (l : List String) (x : String) (h : l.Nodup) :
    (setInsert l x).Nodup := by
  unfold setInsert
  split
  · exact h
  · rename_i hx
    simp [List.nodup_append, h, hx]

theorem nodup_setUpdate (l xs : List String) (h : l.Nodup) :
    (setUpdate l xs).Nodup := by
  induction xs generalizing l with
  | nil => exact h
  | cons x xs ih => exact ih _ (nodup_setInsert _ _ h)

theorem setUpdate_eq_append (l xs : List String) (h : ∀ x ∈ xs, x ∉ l) (hx : xs.Nodup) :
    setUpdate l xs = l ++ xs := by
  induction xs generalizing l with
  | nil => simp [setUpdate]
  | cons x xs ih =>
    have hx1 : x ∉ l := h x (by simp)
    have hins : setInsert l x = l ++ [x] := by unfold setInsert; rw [if_neg hx1]
    show setUpdate (setInsert l x) xs = l ++ x :: xs
    rw [hins, ih]
    · simp
    · intro y hy
      simp only [List.mem_append, List.mem_singleton]
      rintro (hyl | rfl)
      · exact h y (by simp [hy]) hyl
      · exact (List.nodup_cons.mp hx).1 hy
    · exact (List.nodup_cons.mp hx).2

theorem setUpdate_self (xs : List String) (h : xs.Nodup) : setUpdate [] xs = xs := by
  simpa using setUpdate_eq_append [] xs (by simp) h

theorem hasPrefixL_self_append (a t : List Char) : hasPrefixL a (a ++ t) = true := by
  induction a with
  | nil => rfl
  | cons x a ih => simpa [hasPrefixL] using ih

theorem hasPrefixL_cons_ne (l₀ : Char) (lt : List Char) (c : Char) (cs : List Char)
    (h : c ≠ l₀) : hasPrefixL (l₀ :: lt) (c :: cs) = false := by
  have hb : (l₀ == c) = false := beq_eq_false_iff_ne.mpr (fun he => h he.symm)
  simp [hasPrefixL, hb]

theorem takeWhile_append_all (p : Char → Bool) (w rest : List Char)
    (hw : ∀ c ∈ w, p c = true) :
    (w ++ rest).takeWhile p = w ++ rest.takeWhile p := by
  induction w with
  | nil => rfl
  | cons c w ih =>
    have hc : p c = true := hw c (by simp)
    simp only [List.cons_append, List.takeWhile_cons, hc, if_true]
    rw [ih (fun d hd => hw d (by simp [hd]))]

theorem dropWhile_append_all (p : Char → Bool) (w rest : List Char)
    (hw : ∀ c ∈ w, p c = true) :
    (w ++ rest).dropWhile p = rest.dropWhile p := by
  induction w with
  | nil => rfl
  | cons c w ih =>
    have hc : p c = true := hw c (by simp)
    simp only [List.cons_append, List.dropWhile_cons, hc, if_true]
    exact ih (fun d hd => hw d (by simp [hd]))

theorem dropWhile_of_takeWhile_nil (p : Char → Bool) (l : List Char)
    (h : l.takeWhile p = []) : l.dropWhile p = l := by
  have hx := List.takeWhile_append_dropWhile p l
  rw [h] at hx
  simpa using hx

theorem scanLitWord_nil (lit : List Char) : scanLitWord lit [] = [] := by
  rw [scanLitWord]

theorem scanLitWord_cons_neg (lit : List Char) (c : Char) (rest : List Char)
    (h : hasPrefixL lit (c :: rest) = false) :
    scanLitWord lit (c :: rest) = scanLitWord lit rest := by
  rw [scanLitWord]
  simp [h]

theorem scanLitWord_skip (l₀ : Char) (lt pre rest : List Char)
    (h : ∀ c ∈ pre, c ≠ l₀) :
    scanLitWord (l₀ :: lt) (pre ++ rest) = scanLitWord (l₀ :: lt) rest := by
  induction pre with
  | nil => rfl
  | cons c pre ih =>
    rw [List.cons_append,
      scanLitWord_cons_neg _ _ _ (hasPrefixL_cons_ne _ _ _ _ (h c (by simp)))]
    exact ih (fun d hd => h d (by simp [hd]))

theorem scanLitWord_match (l₀ : Char) (lt w rest : List Char) (hw : w ≠ [])
    (hword : ∀ c ∈ w, isWordChar c = true)
    (hrest : rest.takeWhile isWordChar = []) :
    scanLitWord (l₀ :: lt) ((l₀ :: lt) ++ (w ++ rest)) = w :: scanLitWord (l₀ :: lt) rest := by
  have hpre : hasPrefixL (l₀ :: lt) ((l₀ :: lt) ++ (w ++ rest)) = true :=
    hasPrefixL_self_append _ _
  have hdrop : ((l₀ :: lt) ++ (w ++ rest)).drop (l₀ :: lt).length = w ++ rest :=
    List.drop_left _ _
  have htake : (w ++ rest).takeWhile isWordChar = w := by
    rw [takeWhile_append_all _ _ _ hword, hrest, List.append_nil]
  have hdw : (w ++ rest).dropWhile isWordChar = rest := by
    rw [dropWhile_append_all _ _ _ hword, dropWhile_of_takeWhile_nil _ _ hrest]
  rw [List.cons_append] at hpre hdrop ⊢
  rw [scanLitWord, if_pos hpre]
  split
  · rename_i heq
    rw [hdrop, htake] at heq
    exact absurd heq hw
  · rename_i w₀ w' heq
    rw [hdrop, htake] at heq
    rw [hdrop, hdw, ← heq]

theorem scanListLiteral_nil (lit : List Char) : scanListLiteral lit [] = [] := by
  rw [scanListLiteral]

theorem scanListLiteral_cons_neg (lit : List Char) (c : Char) (rest : List Char)
    (h : hasPrefixL lit (c :: rest) = false) :
    scanListLiteral lit (c :: rest) = scanListLiteral lit rest := by
  rw [scanListLiteral]
  simp [h]

theorem scanListLiteral_skip (lit pre rest : List Char)
    (h : ∀ i, i < pre.length → hasPrefixL lit (pre.drop i ++ rest) = false) :
    scanListLiteral lit (pre ++ rest) = scanListLiteral lit rest := by
  induction pre with
  | nil => rfl
  | cons c pre ih =>
    have h0 := h 0 (by simp)
    rw [List.drop_zero, List.cons_append] at h0
    rw [List.cons_append, scanListLiteral_cons_neg _ _ _ h0]
    exact ih (fun i hi => by
      have hx := h (i + 1) (by simpa using Nat.succ_lt_succ hi)
      simpa using hx)

theorem scanListLiteral_match (l₀ : Char) (lt body post : List Char)
    (hbody : ∀ c ∈ body, c ≠ ']') :
    scanListLiteral (l₀ :: lt) ((l₀ :: lt) ++ (body ++ (']' :: post))) =
      body :: scanListLiteral (l₀ :: lt) post := by
  have hpre : hasPrefixL (l₀ :: lt) ((l₀ :: lt) ++ (body ++ (']' :: post))) = true :=
    hasPrefixL_self_append _ _
  have hdrop : ((l₀ :: lt) ++ (body ++ (']' :: post))).drop (l₀ :: lt).length =
      body ++ (']' :: post) := List.drop_left _ _
  have hbodyp : ∀ c ∈ body, (c != ']') = true := by
    intro c hc
    simpa using hbody c hc
  have htake : (body ++ (']' :: post)).takeWhile (fun ch => ch != ']') = body := by
    rw [takeWhile_append_all _ _ _ hbodyp]
    simp [List.takeWhile_cons]
  have hdw : (body ++ (']' :: post)).dropWhile (fun ch => ch != ']') = ']' :: post := by
    rw [dropWhile_append_all _ _ _ hbodyp]
    simp [List.dropWhile_cons]
  rw [List.cons_append] at hpre hdrop ⊢
  rw [scanListLiteral, if_pos hpre]
  split
  · rename_i heq
    rw [hdrop, hdw] at heq
    exact absurd heq (by simp)
  · rename_i x tail heq
    rw [hdrop, hdw] at heq
    rw [hdrop, htake]
    rw [List.cons.injEq] at heq
    rw [heq.2]

theorem scanQuoted_nil : scanQuoted [] = [] := by
  rw [scanQuoted]

theorem scanQuoted_cons_neg (c : Char) (rest : List Char) (h : isQuote c = false) :
    scanQuoted (c :: rest) = scanQuoted rest := by
  rw [scanQuoted]
  simp [h]

theorem scanQuoted_skip (pre rest : List Char) (h : ∀ c ∈ pre, isQuote c = false) :
    scanQuoted (pre ++ rest) = scanQuoted rest := by
  induction pre with
  | nil => rfl
  | cons c pre ih =>
    rw [List.cons_append, scanQuoted_cons_neg _ _ (h c (by simp))]
    exact ih (fun d hd => h d (by simp [hd]))

theorem scanQuoted_match (x rest : List Char) (hx : x ≠ [])
    (hword : ∀ c ∈ x, isWordHyphen c = true) :
    scanQuoted ('\'' :: (x ++ ('\'' :: rest))) = x :: scanQuoted rest := by
  have hq : isQuote '\'' = true := by decide
  have hnwc : isWordHyphen '\'' = false := by decide
  have hnw : ('\'' :: rest).takeWhile isWordHyphen = [] := by
    rw [List.takeWhile_cons, hnwc]
    simp
  have htake : (x ++ ('\'' :: rest)).takeWhile isWordHyphen = x := by
    rw [takeWhile_append_all _ _ _ hword, hnw, List.append_nil]
  have hdw : (x ++ ('\'' :: rest)).dropWhile isWordHyphen = '\'' :: rest := by
    rw [dropWhile_append_all _ _ _ hword, dropWhile_of_takeWhile_nil _ _ hnw]
  rw [scanQuoted, if_pos hq]
  split
  · rename_i heq
    rw [htake] at heq
    exact absurd heq hx
  · rename_i w₀ w' heq
    rw [htake] at heq
    split
    · rename_i heq2
      rw [hdw] at heq2
      exact absurd heq2 (by simp)
    · rename_i q tail heq2
      rw [hdw, List.cons.injEq] at heq2
      rw [if_pos (heq2.1 ▸ hq), ← heq, heq2.2]

theorem cmake_lit_eq : "find_package(".toList = 'f' :: "ind_package(".toList := rfl

theorem whitespace_ne_f (c : Char) (h : c.isWhitespace = true) : c ≠ 'f' := by
  intro hc
  rw [hc] at h
  exact absurd h (by decide)

theorem scanLitWord_glueCalls (names seps : List (List Char))
    (hlen : seps.length = names.length + 1)
    (hnames : ∀ x ∈ names, x ≠ [] ∧ ∀ c ∈ x, isWordChar c = true)
    (hseps : ∀ s ∈ seps, ∀ c ∈ s, c.isWhitespace = true) :
    scanLitWord ('f' :: "ind_package(".toList) (glueCalls seps names) = names := by
  induction names generalizing seps with
  | nil =>
    cases seps with
    | nil => simp at hlen
    | cons s seps' =>
      have hg : glueCalls (s :: seps') [] = s := rfl
      rw [hg, ← List.append_nil s,
        scanLitWord_skip _ _ _ _ (fun c hc => whitespace_ne_f c (hseps s (by simp) c hc)),
        scanLitWord_nil]
  | cons x xs ih =>
    cases seps with
    | nil => simp at hlen
    | cons s seps' =>
      have hg : glueCalls (s :: seps') (x :: xs) =
          s ++ (cmakeCallL x ++ glueCalls seps' xs) := rfl
      rw [hg,
        scanLitWord_skip _ _ _ _ (fun c hc => whitespace_ne_f c (hseps s (by simp) c hc))]
      have hc : cmakeCallL x ++ glueCalls seps' xs =
          ('f' :: "ind_package(".toList) ++ (x ++ (')' :: glueCalls seps' xs)) := by
        unfold cmakeCallL
        rw [cmake_lit_eq]
        simp
      have hrest : (')' :: glueCalls seps' xs).takeWhile isWordChar = [] := by
        rw [List.takeWhile_cons]
        have hp : isWordChar ')' = false := by decide
        rw [hp]
        simp
      rw [hc, scanLitWord_match _ _ _ _ (hnames x (by simp)).1 (hnames x (by simp)).2 hrest]
      have hskip : scanLitWord ('f' :: "ind_package(".toList) (')' :: glueCalls seps' xs) =
          scanLitWord ('f' :: "ind_package(".toList) (glueCalls seps' xs) := by
        have : (')' :: glueCalls seps' xs) = [')'] ++ glueCalls seps' xs := rfl
        rw [this, scanLitWord_skip _ _ _ _ (fun c hc => by
          simp only [List.mem_singleton] at hc
          rw [hc]
          decide)]
      rw [hskip, ih seps' (by simpa using Nat.succ_injective (by simpa using hlen))
        (fun y hy => hnames y (by simp [hy])) (fun t ht => hseps t (by simp [ht]))]

theorem analyze_foldl (l : List (String × String)) (acc : List String) :
    l.foldl (fun deps fc =>
        if recognizedNames.contains fc.1 then setUpdate deps (parse_dependencies fc.1 fc.2)
        else deps) acc =
      setUpdate acc ((l.filter (fun fc => recognizedNames.contains fc.1)).flatMap
        (fun fc => parse_dependencies fc.1 fc.2)) := by
  induction l generalizing acc with
  | nil => simp [setUpdate]
  | cons fc l ih =>
    rw [List.foldl_cons, List.filter_cons]
    cases hr : recognizedNames.contains fc.1 with
    | false =>
      simp only [hr, Bool.false_eq_true, if_false]
      exact ih acc
    | true =>
      simp only [hr, if_true]
      rw [ih, List.flatMap_cons, setUpdate_append]

theorem analyze_eq (fs : String → Option DirTree) (path : String) :
    analyze fs path = setUpdate []
      ((recognizedWalk fs path).flatMap (fun fc => parse_dependencies fc.1 fc.2)) := by
  unfold analyze recognizedWalk
  exact analyze_foldl _ _

/-- C1: for a directory tree whose only recognized build file is a
`CMakeLists.txt` consisting of `find_package(<name>)` calls over distinct
nonempty word-character names, interleaved with arbitrary whitespace runs
in any order, `analyze` returns exactly those names, once each (stated up
to permutation, since CPython leaves `set` iteration order unspecified). -/
theorem analyze_cmake_distinct (fs : String → Option DirTree) (path : String)
    (names seps : List (List Char))
    (hrec : recognizedWalk fs path = [("CMakeLists.txt", cmakeContent seps names)])
    (hlen : seps.length = names.length + 1)
    (hnames : ∀ x ∈ names, x ≠ [] ∧ ∀ c ∈ x, isWordChar c = true)
    (hseps : ∀ s ∈ seps, ∀ c ∈ s, c.isWhitespace = true)
    (hnodup : names.Nodup) :
    (analyze fs path).Perm (names.map String.mk) := by
  have hparse : parse_dependencies "CMakeLists.txt" (cmakeContent seps names) =
      setUpdate [] (names.map String.mk) := by
    show setUpdate [] (listToStrings (scanLitWord "find_package(".toList
      (cmakeContent seps names).toList)) = setUpdate [] (names.map String.mk)
    have htl : (cmakeContent seps names).toList = glueCalls seps names := rfl
    rw [htl, cmake_lit_eq, scanLitWord_glueCalls names seps hlen hnames hseps]
    rfl
  rw [analyze_eq, hrec, List.flatMap_cons, List.flatMap_nil, List.append_nil, hparse]
  have hmn : (names.map String.mk).Nodup :=
    List.Nodup.map (fun a b h => congrArg String.data h) hnodup
  rw [setUpdate_self _ hmn, setUpdate_self _ hmn]

/-- C1 witness: the spec's concrete scenario, a tree holding one
`CMakeLists.txt` containing `find_package(OpenSSL)\nfind_package(ZLIB)`. -/
theorem analyze_cmake_distinct_witness :
    (analyze
      (fun _ => some (DirTree.node
        [("CMakeLists.txt", cmakeContent [[], ['\n'], []]
          [['O', 'p', 'e', 'n', 'S', 'S', 'L'], ['Z', 'L', 'I', 'B']])] []))
      "/src").Perm ["OpenSSL", "ZLIB"] := by
  have h := analyze_cmake_distinct
    (fun _ => some (DirTree.node
      [("CMakeLists.txt", cmakeContent [[], ['\n'], []]
        [['O', 'p', 'e', 'n', 'S', 'S', 'L'], ['Z', 'L', 'I', 'B']])] []))
    "/src"
    [['O', 'p', 'e', 'n', 'S', 'S', 'L'], ['Z', 'L', 'I', 'B']] [[], ['\n'], []]
    (by simp [recognizedWalk, osWalkFiles, walkFiles, walkFilesList, recognizedNames])
    (by decide) (by decide) (by decide) (by decide)
  have he : ([['O', 'p', 'e', 'n', 'S', 'S', 'L'], ['Z', 'L', 'I', 'B']].map String.mk) =
      ["OpenSSL", "ZLIB"] := by decide
  exact he ▸ h

theorem setup_lit_eq : setupLit = 'i' :: "nstall_requires=[".toList := rfl

theorem wordHyphen_ne_rbracket (c : Char) (h : isWordHyphen c = true) : c ≠ ']' := by
  intro hc
  rw [hc] at h
  exact absurd h (by decide)

theorem glueToks_no_rbracket (names seps : List (List Char))
    (hnames : ∀ x ∈ names, ∀ c ∈ x, isWordHyphen c = true)
    (hseps : ∀ s ∈ seps, ∀ c ∈ s, c ≠ ']') :
    ∀ c ∈ glueToks seps names, c ≠ ']' := by
  induction names generalizing seps with
  | nil =>
    cases seps with
    | nil =>
      intro c hc
      exact absurd hc (by rw [show glueToks [] [] = [] from rfl]; simp)
    | cons s seps' => exact fun c hc => hseps s (by simp) c hc
  | cons x xs ih =>
    cases seps with
    | nil =>
      intro c hc
      exact absurd hc (by rw [show glueToks [] (x :: xs) = [] from rfl]; simp)
    | cons s seps' =>
      intro c hc
      rw [show glueToks (s :: seps') (x :: xs) = s ++ (quoteTok x ++ glueToks seps' xs)
        from rfl] at hc
      rcases List.mem_append.mp hc with hs | hq
      · exact hseps s (by simp) c hs
      · rcases List.mem_append.mp hq with ht | hg2
        · rw [show quoteTok x = '\'' :: (x ++ ['\'']) from rfl] at ht
          rcases List.mem_cons.mp ht with rfl | ht2
          · decide
          · rcases List.mem_append.mp ht2 with hx | hlast
            · exact wordHyphen_ne_rbracket c (hnames x (by simp) c hx)
            · rw [List.mem_singleton] at hlast
              rw [hlast]
              decide
        · exact ih seps' (fun y hy => hnames y (by simp [hy]))
            (fun t ht => hseps t (by simp [ht])) c hg2

theorem scanQuoted_glueToks (names seps : List (List Char))
    (hlen : seps.length = names.length + 1)
    (hnames : ∀ x ∈ names, x ≠ [] ∧ ∀ c ∈ x, isWordHyphen c = true)
    (hseps : ∀ s ∈ seps, ∀ c ∈ s, isQuote c = false) :
    scanQuoted (glueToks seps names) = names := by
  induction names generalizing seps with
  | nil =>
    cases seps with
    | nil => simp at hlen
    | cons s seps' =>
      rw [show glueToks (s :: seps') [] = s from rfl, ← List.append_nil s,
        scanQuoted_skip _ _ (fun c hc => hseps s (by simp) c hc), scanQuoted_nil]
  | cons x xs ih =>
    cases seps with
    | nil => simp at hlen
    | cons s seps' =>
      rw [show glueToks (s :: seps') (x :: xs) = s ++ (quoteTok x ++ glueToks seps' xs)
        from rfl,
        scanQuoted_skip _ _ (fun c hc => hseps s (by simp) c hc)]
      have hq : quoteTok x ++ glueToks seps' xs =
          '\'' :: (x ++ ('\'' :: glueToks seps' xs)) := by
        rw [show quoteTok x = '\'' :: (x ++ ['\'']) from rfl]
        simp
      rw [hq, scanQuoted_match x _ (hnames x (by simp)).1 (hnames x (by simp)).2,
        ih seps' (by simpa using Nat.succ_injective (by simpa using hlen))
          (fun y hy => hnames y (by simp [hy])) (fun t ht => hseps t (by simp [ht]))]

/-- C8: for a `setup.py` whose text is anything (free of further
occurrences of `install_requires=[`) around one `install_requires=[...]`
list literal holding quoted tokens, the scanner isolates the literal's body
(up to the first `]`) and extracts exactly the quoted tokens inside it as
the separate dependency names. -/
theorem parse_setup_two_stage (pre post : List Char) (names seps : List (List Char))
    (hpre : ∀ i, i < pre.length →
      hasPrefixL setupLit
        (pre.drop i ++ (setupLit ++ (glueToks seps names ++ (']' :: post)))) = false)
    (hpost : ∀ i, i < post.length → hasPrefixL setupLit (post.drop i) = false)
    (hlen : seps.length = names.length + 1)
    (hnames : ∀ x ∈ names, x ≠ [] ∧ ∀ c ∈ x, isWordHyphen c = true)
    (hseps : ∀ s ∈ seps, ∀ c ∈ s, isQuote c = false ∧ c ≠ ']') :
    parse_dependencies "setup.py" (setupContent pre seps names post) =
      setUpdate [] (names.map String.mk) := by
  show setUpdate [] (listToStrings ((scanListLiteral "install_requires=[".toList
    (setupContent pre seps names post).toList).flatMap scanQuoted)) = _
  have htl : (setupContent pre seps names post).toList =
      pre ++ (setupLit ++ (glueToks seps names ++ (']' :: post))) := rfl
  have hlitn : "install_requires=[".toList = setupLit := rfl
  rw [htl, hlitn, scanListLiteral_skip _ _ _ hpre]
  have hbody : ∀ c ∈ glueToks seps names, c ≠ ']' :=
    glueToks_no_rbracket names seps (fun x hx => (hnames x hx).2)
      (fun s hs c hc => (hseps s hs c hc).2)
  rw [setup_lit_eq, scanListLiteral_match _ _ _ _ hbody]
  have hptail : scanListLiteral ('i' :: "nstall_requires=[".toList) post = [] := by
    rw [← List.append_nil post,
      scanListLiteral_skip _ _ _ (fun i hi => by simpa using hpost i hi),
      scanListLiteral_nil]
  rw [hptail, List.flatMap_cons, List.flatMap_nil, List.append_nil,
    scanQuoted_glueToks names seps hlen hnames (fun s hs c hc => (hseps s hs c hc).1)]
  rfl

/-- C8 witness: `setup(install_requires=['requests', 'flask-cors'])`. -/
theorem parse_setup_two_stage_witness :
    parse_dependencies "setup.py"
      (setupContent "setup(".toList [[], [',', ' '], []]
        [['r', 'e', 'q', 'u', 'e', 's', 't', 's'],
         ['f', 'l', 'a', 's', 'k', '-', 'c', 'o', 'r', 's']] ")".toList) =
      ["requests", "flask-cors"] := by
  have h := parse_setup_two_stage "setup(".toList ")".toList
    [['r', 'e', 'q', 'u', 'e', 's', 't', 's'],
     ['f', 'l', 'a', 's', 'k', '-', 'c', 'o', 'r', 's']] [[], [',', ' '], []]
    (by decide) (by decide) (by decide) (by decide) (by decide)
  have he : setUpdate []
      ([['r', 'e', 'q', 'u', 'e', 's', 't', 's'],
        ['f', 'l', 'a', 's', 'k', '-', 'c', 'o', 'r', 's']].map String.mk) =
      ["requests", "flask-cors"] := by decide
  exact he ▸ h

/-- C9: when the root path maps to nothing in the filesystem, the walk
yields no entries and `analyze` returns the empty result instead of
raising. -/
theorem analyze_missing_root (fs : String → Option DirTree) (path : String)
    (h : fs path = none) : analyze fs path = [] := by
  unfold analyze osWalkFiles
  rw [h]
  rfl

/-- C9 witness: an entirely empty filesystem. -/
theorem analyze_missing_root_witness :
    analyze (fun _ => none) "/does-not-exist" = [] :=
  analyze_missing_root (fun _ => none) "/does-not-exist" rfl

/-- C3: tracking any package and immediately cleaning up leaves the
in-memory tracked list empty and persists `{"packages": []}`. -/
theorem track_then_cleanup (s : TrackerState) (p : String) :
    (cleanup (track p s)).tracked = [] ∧
    (cleanup (track p s)).file = .valid (.jobj [("packages", .jarr [])]) :=
  ⟨rfl, rfl⟩

/-- C10: if the package is already tracked, `track` changes nothing at all
(in particular no write to the persistence file happens); if it is new, it
is appended at the end, preserving all existing entries and their order. -/
theorem track_frame (s : TrackerState) (p : String) :
    (p ∈ s.tracked → track p s = s) ∧
    (p ∉ s.tracked → (track p s).tracked = s.tracked ++ [p]) := by
  constructor
  · intro h
    unfold track
    rw [if_pos h]
  · intro h
    unfold track
    rw [if_neg h]
    rfl

/-- C10 witness: a no-op on an already-tracked package and an append for a
new one. -/
theorem track_frame_witness :
    track "a" ⟨["a"], FileState.absent⟩ = ⟨["a"], FileState.absent⟩ ∧
    (track "b" ⟨["a"], FileState.absent⟩).tracked = ["a", "b"] :=
  ⟨(track_frame ⟨["a"], FileState.absent⟩ "a").1 (by decide),
   (track_frame ⟨["a"], FileState.absent⟩ "b").2 (by decide)⟩

theorem track_mem_self (p : String) (s : TrackerState) : p ∈ (track p s).tracked := by
  unfold track
  split
  · assumption
  · simp [save_tracked_packages]

theorem track_mem_mono (p q : String) (s : TrackerState) (h : q ∈ s.tracked) :
    q ∈ (track p s).tracked := by
  unfold track
  split
  · exact h
  · simp [save_tracked_packages, h]

theorem track_nodup (p : String) (s : TrackerState) (h : s.tracked.Nodup) :
    (track p s).tracked.Nodup := by
  unfold track
  split
  · exact h
  · rename_i hp
    simp [save_tracked_packages, List.nodup_append, h, hp]

/-- C4 counterexample: starting from a persistence file whose `packages`
array already contains `"a"` twice, tracking `"a"` twice leaves two
entries, not one (the load does not deduplicate). -/
theorem track_twice_dup_cex :
    mkInit dupFile = some sDup ∧
    (track "a" (track "a" sDup)).tracked.count "a" = 2 :=
  ⟨rfl, by decide⟩

/-- C4 amended: for every tracker state in which the package occurs at most
once (any duplicate-free state qualifies), tracking it twice in succession
results in exactly one entry for it. -/
theorem track_twice_count (s : TrackerState) (p : String)
    (h : s.tracked.count p ≤ 1) :
    (track p (track p s)).tracked.count p = 1 := by
  by_cases hp : p ∈ s.tracked
  · have h1 : track p s = s := (track_frame s p).1 hp
    rw [h1, h1]
    have h2 : 0 < s.tracked.count p := List.count_pos_iff.mpr hp
    omega
  · have h2 : (track p s).tracked = s.tracked ++ [p] := (track_frame s p).2 hp
    have h3 : track p (track p s) = track p s :=
      (track_frame (track p s) p).1 (track_mem_self p s)
    rw [h3, h2, List.count_append, List.count_eq_zero.mpr hp]
    simp

/-- C4 witness: tracking the same package twice from the empty state. -/
theorem track_twice_count_witness :
    (track "a" (track "a" (⟨[], FileState.absent⟩ : TrackerState))).tracked.count "a" = 1 :=
  track_twice_count ⟨[], FileState.absent⟩ "a" (by decide)

theorem install_deps_mem_mono (ec : String → Int) (pkgs : List String)
    (s : TrackerState) (p : String) (h : p ∈ s.tracked) :
    p ∈ (install_deps ec pkgs s).1.tracked := by
  induction pkgs generalizing s with
  | nil => exact h
  | cons q rest ih => exact ih (track q s) (track_mem_mono q p s h)

theorem install_deps_mem (ec : String → Int) (pkgs : List String)
    (s : TrackerState) (p : String) (h : p ∈ pkgs) :
    p ∈ (install_deps ec pkgs s).1.tracked := by
  induction pkgs generalizing s with
  | nil => simp at h
  | cons q rest ih =>
    have hfst : (install_deps ec (q :: rest) s).1 = (install_deps ec rest (track q s)).1 := rfl
    rw [hfst]
    rcases List.mem_cons.mp h with rfl | hrest
    · exact install_deps_mem_mono ec rest (track p s) p (track_mem_self p s)
    · exact ih (track q s) hrest

theorem install_deps_log (ec : String → Int) (pkgs : List String) (s : TrackerState) :
    (install_deps ec pkgs s).2 = pkgs := by
  induction pkgs generalizing s with
  | nil => rfl
  | cons q rest ih =>
    have hsnd : (install_deps ec (q :: rest) s).2 =
        q :: (install_deps ec rest (track q s)).2 := rfl
    rw [hsnd, ih]

theorem install_deps_ec_irrel (ec ec' : String → Int) (pkgs : List String)
    (s : TrackerState) : install_deps ec pkgs s = install_deps ec' pkgs s := by
  induction pkgs generalizing s with
  | nil => rfl
  | cons q rest ih =>
    show ((install_deps ec rest (track q s)).1, q :: (install_deps ec rest (track q s)).2) = _
    rw [ih]
    rfl

/-- C5: `install_deps` issues an install command for every requested
package in order (the returned log equals the request list), tracks every
requested package unconditionally, and its result does not depend on the
exit statuses of the install commands — so a per-package failure neither
prevents tracking nor stops the batch. -/
theorem install_deps_spec (ec ec' : String → Int) (pkgs : List String)
    (s : TrackerState) (p : String) (h : p ∈ pkgs) :
    p ∈ (install_deps ec pkgs s).1.tracked ∧
    (install_deps ec pkgs s).2 = pkgs ∧
    install_deps ec pkgs s = install_deps ec' pkgs s :=
  ⟨install_deps_mem ec pkgs s p h, install_deps_log ec pkgs s,
    install_deps_ec_irrel ec ec' pkgs s⟩

/-- C5 witness: two packages, one failing exit status, both tracked. -/
theorem install_deps_spec_witness :
    "p" ∈ (install_deps (fun _ => 1) ["p", "q"] ⟨[], FileState.absent⟩).1.tracked ∧
    (install_deps (fun _ => 1) ["p", "q"] ⟨[], FileState.absent⟩).2 = ["p", "q"] ∧
    install_deps (fun _ => 1) ["p", "q"] ⟨[], FileState.absent⟩ =
      install_deps (fun _ => 0) ["p", "q"] ⟨[], FileState.absent⟩ :=
  install_deps_spec (fun _ => 1) (fun _ => 0) ["p", "q"] ⟨[], FileState.absent⟩ "p" (by decide)

theorem install_deps_nodup (ec : String → Int) (pkgs : List String)
    (s : TrackerState) (h : s.tracked.Nodup) :
    (install_deps ec pkgs s).1.tracked.Nodup := by
  induction pkgs generalizing s with
  | nil => exact h
  | cons q rest ih => exact ih (track q s) (track_nodup q s h)

/-- C6 counterexample: the initial state loaded from a persistence file
whose `packages` array contains a duplicate is itself duplicated — the
load performs no deduplication, so the invariant does not hold for every
loaded initial state. -/
theorem nodup_invariant_cex :
    mkInit dupFile = some sDup ∧ ¬ sDup.tracked.Nodup :=
  ⟨rfl, by decide⟩

/-- C6 amended: the no-duplicates invariant holds for the empty initial
state and is preserved by `track`, `cleanup` and `install_deps`; an
initial state loaded from the persistence file satisfies it only when the
file's `packages` array is itself duplicate-free (the load copies the
array verbatim). -/
theorem nodup_invariant (s : TrackerState) (p : String) (ec : String → Int)
    (pkgs : List String) (h : s.tracked.Nodup) :
    (track p s).tracked.Nodup ∧ (cleanup s).tracked.Nodup ∧
    (install_deps ec pkgs s).1.tracked.Nodup ∧
    (⟨[], FileState.absent⟩ : TrackerState).tracked.Nodup :=
  ⟨track_nodup p s h, List.nodup_nil, install_deps_nodup ec pkgs s h, List.nodup_nil⟩

/-- C6 witness: preservation from a concrete duplicate-free state. -/
theorem nodup_invariant_witness :
    (track "y" ⟨["x"], FileState.absent⟩).tracked.Nodup ∧
    (cleanup ⟨["x"], FileState.absent⟩).tracked.Nodup ∧
    (install_deps (fun _ => 0) ["z"] ⟨["x"], FileState.absent⟩).1.tracked.Nodup ∧
    (⟨[], FileState.absent⟩ : TrackerState).tracked.Nodup :=
  nodup_invariant ⟨["x"], FileState.absent⟩ "y" (fun _ => 0) ["z"] (by decide)

/-- C7 counterexample: on a file holding valid JSON that is not an object
(here the array `[]`), the load raises `AttributeError` from
`json.load(f).get(...)` instead of reading permissively. -/
theorem load_array_raises_cex :
    load_tracked_packages (.valid (.jarr [])) = .error .attributeError := rfl

/-- C7 amended: an absent tracking file loads as the empty array, and a
file holding a valid JSON object is read permissively — a missing
`packages` field defaults to the empty array; but valid JSON of a
non-object shape raises `AttributeError`. -/
theorem load_tracked_permissive (fields : List (String × JValue))
    (h : ∀ kv ∈ fields, kv.1 ≠ "packages") :
    load_tracked_packages .absent = .ok (.jarr []) ∧
    load_tracked_packages (.valid (.jobj fields)) = .ok (.jarr []) := by
  refine ⟨rfl, ?_⟩
  show Except.ok (dictGetD fields "packages" (.jarr [])) = _
  congr 1
  induction fields with
  | nil => rfl
  | cons kv rest ih =>
    unfold dictGetD
    rw [List.foldl_cons, if_neg (h kv (by simp))]
    exact ih (fun kv2 h2 => h kv2 (by simp [h2]))

/-- C7 witness: an absent file, and an object file without `packages`. -/
theorem load_tracked_permissive_witness :
    load_tracked_packages .absent = .ok (.jarr []) ∧
    load_tracked_packages (.valid (.jobj [("other", .jnum 3)])) = .ok (.jarr []) :=
  load_tracked_permissive [("other", .jnum 3)] (by
    intro kv hkv
    rw [List.mem_singleton] at hkv
    rw [hkv]
    decide)

theorem dictInsert_keys (m : List (String × String)) (k v : String) :
    (dictInsert m k v).map Prod.fst = setInsert (m.map Prod.fst) k := by
  unfold dictInsert setInsert
  split
  · rw [List.map_map]
    exact List.map_congr_left (fun kv _ => by
      simp only [Function.comp_apply]
      split <;> rfl)
  · simp

theorem foldl_dict_keys (deps : List String) (m : List (String × String)) :
    ((deps.foldl (fun m dep => dictInsert m dep (aptName dep)) m).map Prod.fst) =
      setUpdate (m.map Prod.fst) deps := by
  induction deps generalizing m with
  | nil => rfl
  | cons d deps ih =>
    rw [List.foldl_cons, ih]
    show setUpdate ((dictInsert m d (aptName d)).map Prod.fst) deps = _
    rw [dictInsert_keys]
    rfl

theorem foldl_dict_values (deps : List String) (m : List (String × String))
    (h : ∀ kv ∈ m, kv.2 = aptName kv.1) :
    ∀ kv ∈ deps.foldl (fun m dep => dictInsert m dep (aptName dep)) m,
      kv.2 = aptName kv.1 := by
  induction deps generalizing m with
  | nil => exact h
  | cons d deps ih =>
    rw [List.foldl_cons]
    apply ih
    intro kv hkv
    unfold dictInsert at hkv
    split at hkv
    · rcases List.mem_map.mp hkv with ⟨kv0, hkv0, rfl⟩
      split
      · rename_i he
        rw [← he]
      · exact h kv0 hkv0
    · rcases List.mem_append.mp hkv with hm | hs
      · exact h kv hm
      · rw [List.mem_singleton] at hs
        rw [hs]

theorem dictFind_of_mem_keys (m : List (String × String)) (k : String)
    (hkeys : k ∈ m.map Prod.fst) (hvals : ∀ kv ∈ m, kv.2 = aptName kv.1) :
    dictFind m k = some (aptName k) := by
  induction m with
  | nil => simp at hkeys
  | cons kv rest ih =>
    unfold dictFind
    by_cases hk : kv.1 = k
    · rw [if_pos hk, hvals kv (by simp), hk]
    · rw [if_neg hk]
      apply ih
      · rw [List.map_cons] at hkeys
        rcases List.mem_cons.mp hkeys with he | hrest
        · exact absurd he.symm hk
        · exact hrest
      · exact fun kv2 h2 => hvals kv2 (by simp [h2])

/-- C2: the Resolver maps every supplied dependency name `X` to exactly
`"lib" + lowercase(X) + "-dev"`, and the resulting mapping has exactly one
entry per distinct input name, keyed by name (the embedding is a pure
total function, so determinism across repeated calls is inherent). -/
theorem suggest_apt_packages_spec (deps : List String) (x : String) (h : x ∈ deps) :
    dictFind (suggest_apt_packages deps) x = some ("lib" ++ pyLower x ++ "-dev") ∧
    (suggest_apt_packages deps).map Prod.fst = setUpdate [] deps ∧
    ((suggest_apt_packages deps).map Prod.fst).Nodup := by
  have hkeys : (suggest_apt_packages deps).map Prod.fst = setUpdate [] deps := by
    have hx := foldl_dict_keys deps []
    simpa [suggest_apt_packages] using hx
  refine ⟨?_, hkeys, ?_⟩
  · show dictFind (suggest_apt_packages deps) x = some (aptName x)
    apply dictFind_of_mem_keys
    · rw [hkeys, mem_setUpdate]
      exact Or.inr h
    · exact foldl_dict_values deps [] (by simp)
  · rw [hkeys]
    exact nodup_setUpdate [] deps List.nodup_nil

/-- C2 witness: the spec's concrete mapping for OpenSSL and zlib. -/
theorem suggest_apt_packages_spec_witness :
    dictFind (suggest_apt_packages ["OpenSSL", "zlib"]) "OpenSSL" =
      some ("lib" ++ pyLower "OpenSSL" ++ "-dev") ∧
    (suggest_apt_packages ["OpenSSL", "zlib"]).map Prod.fst =
      setUpdate [] ["OpenSSL", "zlib"] ∧
    ((suggest_apt_packages ["OpenSSL", "zlib"]).map Prod.fst).Nodup :=
  suggest_apt_packages_spec ["OpenSSL", "zlib"] "OpenSSL" (by decide)

end Cortex
